import Mathlib

/-!
Verification of the checkers AI move-selection core (ai.py) against its
natural-language specification.  The board/move library is an external
collaborator, so the development is parametric over a `Game` interface
providing exactly the operations the AI module uses.
-/

namespace CheckersAI

/-- The two player identities (Python ints 1 and 2). -/
inductive Player where
  | P1 : Player
  | P2 : Player
deriving DecidableEq, Repr

/-- `pl = 1; if player == 1: pl = 2` — the opposing player. -/
def other_player : Player → Player
  | .P1 => .P2
  | .P2 => .P1

/-- Numeric values flowing through the search: integer heuristic grades
together with the Python floats `float("-inf")` (⊥) and `float("inf")` (⊤). -/
abbrev EVal := WithBot (WithTop ℤ)

/-- Inject an integer grade into the value domain. -/
def EVal.ofInt (n : ℤ) : EVal := ((n : WithTop ℤ) : EVal)

/-- The opaque board/move capability surface consumed by ai.py:
`board.get_available_moves(player)`, `move.apply(board)`,
`board.get_player_squares(player)` and `board.piece_class[square]`. -/
structure Game where
  Board : Type
  Move : Type
  Square : Type
  get_available_moves : Board → Player → List Move
  apply : Move → Board → Board
  get_player_squares : Board → Player → List Square
  piece_class : Board → Square → ℕ

/-- `heuristic_function(board, player)` from ai.py: material difference plus
king-count difference, from the perspective of `player`. -/
def heuristic_function (G : Game) (board : G.Board) (player : Player) : ℤ :=
  let oponent : Player := match player with | .P1 => .P2 | .P2 => .P1
  let sq_player := G.get_player_squares board player
  let sq_oponent := G.get_player_squares board oponent
  let n_player : ℤ := sq_player.length
  let n_oponent : ℤ := sq_oponent.length
  let n_pl_kings : ℤ := sq_player.countP (fun s => G.piece_class board s == 2)
  let n_op_kings : ℤ := sq_oponent.countP (fun s => G.piece_class board s == 2)
  (n_player - n_oponent) + (n_pl_kings - n_op_kings)

/-- The termination (leaf) action shared by `minimax` and `alpha_beta`:
evaluate the board for the static player, append the grade, return it. -/
def leafResult (G : Game) (board : G.Board) (st_player : Player)
    (acc : List ℤ) : EVal × List ℤ :=
  let grade := heuristic_function G board st_player
  (EVal.ofInt grade, acc ++ [grade])

/-- The `for move in moves` loop of the maximizing branch of `minimax`:
`best_value = max(best_value, minimax(...))`, threading the accumulator. -/
def mmMaxLoop {α : Type} (step : α → List ℤ → EVal × List ℤ) :
    List α → EVal → List ℤ → EVal × List ℤ
  | [], best_value, list_h => (best_value, list_h)
  | m :: rest, best_value, list_h =>
    let r := step m list_h
    mmMaxLoop step rest (max best_value r.1) r.2

/-- The `for move in moves` loop of the minimizing branch of `minimax`:
`best_value = min(best_value, minimax(...))`, threading the accumulator. -/
def mmMinLoop {α : Type} (step : α → List ℤ → EVal × List ℤ) :
    List α → EVal → List ℤ → EVal × List ℤ
  | [], best_value, list_h => (best_value, list_h)
  | m :: rest, best_value, list_h =>
    let r := step m list_h
    mmMinLoop step rest (min best_value r.1) r.2

/-- `minimax(move, board, depth, player, st_player, list_h)` from ai.py.
The mutated Python list `list_h` is threaded explicitly; the pair holds
(returned value, final accumulator contents). -/
def minimax (G : Game) (mv : G.Move) (board : G.Board) (depth : ℕ)
    (player st_player : Player) (list_h : List ℤ) : EVal × List ℤ :=
  match depth with
  | 0 => leafResult G board st_player list_h
  | d + 1 =>
    if (G.get_available_moves board player).length = 0 then
      leafResult G board st_player list_h
    else
      let new_board := G.apply mv board
      let moves := G.get_available_moves new_board player
      match player with
      | .P1 =>
        mmMaxLoop (fun m acc => minimax G m new_board d .P2 st_player acc)
          moves ⊥ list_h
      | .P2 =>
        mmMinLoop (fun m acc => minimax G m new_board d .P1 st_player acc)
          moves ⊥ list_h

/-- The maximizing loop of `alpha_beta`, including the `break` on
`beta <= alfa`: `v = max(v, rec(...)); alfa = max(alfa, v)`. -/
def abMaxLoop {α : Type} (step : α → EVal → EVal → List ℤ → EVal × List ℤ) :
    List α → EVal → EVal → EVal → List ℤ → EVal × List ℤ
  | [], v, _, _, answers => (v, answers)
  | m :: rest, v, alfa, beta, answers =>
    let r := step m alfa beta answers
    let v2 := max v r.1
    let alfa2 := max alfa v2
    if beta ≤ alfa2 then (v2, r.2)
    else abMaxLoop step rest v2 alfa2 beta r.2

/-- The minimizing loop of `alpha_beta`, including the `break` on
`beta <= alfa`: `v = min(v, rec(...)); beta = min(beta, v)`. -/
def abMinLoop {α : Type} (step : α → EVal → EVal → List ℤ → EVal × List ℤ) :
    List α → EVal → EVal → EVal → List ℤ → EVal × List ℤ
  | [], v, _, _, answers => (v, answers)
  | m :: rest, v, alfa, beta, answers =>
    let r := step m alfa beta answers
    let v2 := min v r.1
    let beta2 := min beta v2
    if beta2 ≤ alfa then (v2, r.2)
    else abMinLoop step rest v2 alfa beta2 r.2

/-- `alpha_beta(move, board, depth, alfa, beta, player, st_player, answers)`
from ai.py.  Note: both branches initialize `v = float("-inf")` exactly as
the source does. -/
def alpha_beta (G : Game) (mv : G.Move) (board : G.Board) (depth : ℕ)
    (alfa beta : EVal) (player st_player : Player) (answers : List ℤ) :
    EVal × List ℤ :=
  match depth with
  | 0 => leafResult G board st_player answers
  | d + 1 =>
    if (G.get_available_moves board player).length = 0 then
      leafResult G board st_player answers
    else
      let new_board := G.apply mv board
      let moves := G.get_available_moves new_board player
      match player with
      | .P1 =>
        abMaxLoop (fun m a b acc => alpha_beta G m new_board d a b .P2 st_player acc)
          moves ⊥ alfa beta answers
      | .P2 =>
        abMinLoop (fun m a b acc => alpha_beta G m new_board d a b .P1 st_player acc)
          moves ⊥ alfa beta answers

/-- The Python builtin `max(list)`: `none` models the `ValueError` raised on an
empty list. -/
def pyMax : List ℤ → Option ℤ
  | [] => none
  | a :: rest =>
    match pyMax rest with
    | none => some a
    | some b => some (max a b)

/-- The Python call `random.choice(l)` with the random draw made explicit as an
index seed `r`; `none` models the `IndexError` raised on an empty list. -/
def pyChoice {α : Type} (l : List α) (r : ℕ) : Option α :=
  l.get? (r % l.length)

/-- The leaf grades recorded while scoring one candidate root move in
`get_next_move`: the accumulator starts empty and is passed to the search
configured by `mode` (depth 5 alpha-beta with an infinite window, or depth 4
plain minimax); an unknown mode leaves it empty. -/
def candidate_leaves (G : Game) (board : G.Board) (pl player : Player)
    (mode : String) (mv : G.Move) : List ℤ :=
  if mode = "abpruning" then (alpha_beta G mv board 5 ⊥ ⊤ pl player []).2
  else if mode = "minmax_simple" then (minimax G mv board 4 pl player []).2
  else []

/-- The scoring loop of `get_next_move`: for each candidate append
`max(list_h)` to `future_states_grades`; `none` models the caught
`ValueError` path (`return random.choice(pos_moves)`) taken when the
accumulator is empty for some candidate. -/
def candidate_grades (G : Game) (board : G.Board) (pl player : Player)
    (mode : String) : List G.Move → Option (List ℤ)
  | [] => some []
  | mv :: rest =>
    match pyMax (candidate_leaves G board pl player mode mv) with
    | none => none
    | some g =>
      match candidate_grades G board pl player mode rest with
      | none => none
      | some gs => some (g :: gs)

/-- `get_next_move(board, player, mode)` from ai.py.  The two `random.choice`
call sites receive explicit index seeds `r1` (fallback draw over the whole
candidate list) and `r2` (tie-break draw over the best indices); `none`
models an uncaught exception. -/
def get_next_move (G : Game) (board : G.Board) (player : Player)
    (mode : String) (r1 r2 : ℕ) : Option G.Move :=
  let pos_moves := G.get_available_moves board player
  let pl := other_player player
  match candidate_grades G board pl player mode pos_moves with
  | none => pyChoice pos_moves r1
  | some fsg =>
    let best_moves_indeces :=
      (List.range fsg.length).filter (fun m => fsg.get? m == pyMax fsg)
    match pyChoice best_moves_indeces r2 with
    | none => none
    | some idx => pos_moves.get? idx

/-- `pick_next_move(board, player)` from ai.py: alpha-beta mode. -/
def pick_next_move (G : Game) (board : G.Board) (player : Player)
    (r1 r2 : ℕ) : Option G.Move :=
  get_next_move G board player "abpruning" r1 r2

/-! A small concrete game used for witnesses and counterexamples.

Boards and moves are natural numbers; applying a move jumps to the board
named by the move. -/

/-- Legal-move table of the concrete game. -/
def gmoves : ℕ → Player → List ℕ
  | 0, .P2 => [1]
  | 1, .P1 => [7]
  | 1, .P2 => [2, 3]
  | 2, .P1 => [4]
  | 3, .P1 => [5]
  | 20, .P1 => [22]
  | 20, .P2 => [21]
  | _, _ => []

/-- Owned-square table of the concrete game. -/
def gsquares : ℕ → Player → List ℕ
  | 3, .P1 => [10, 11, 12, 13, 14]
  | _, _ => []

/-- The concrete game instance. -/
abbrev Gc : Game where
  Board := ℕ
  Move := ℕ
  Square := ℕ
  get_available_moves := gmoves
  apply := fun m _ => m
  get_player_squares := gsquares
  piece_class := fun _ _ => 1

/-! Spec-side definitions (written from the words of the specification,
for the refinement comparison of the heuristic). -/

/-- Spec-side: `n_self`/`n_opp`, the count of squares owned by a player. -/
def spec_material_count (G : Game) (b : G.Board) (p : Player) : ℤ :=
  (G.get_player_squares b p).length

/-- Spec-side: `k_self`/`k_opp`, the count of owned squares whose piece
class is promoted (king). -/
def spec_king_count (G : Game) (b : G.Board) (p : Player) : ℤ :=
  ((G.get_player_squares b p).filter (fun s => G.piece_class b s == 2)).length

/-! Supporting lemmas. -/

/-- A `min`-fold seeded with `-infinity` can never leave `-infinity`. -/
theorem mmMinLoop_bot {α : Type} (step : α → List ℤ → EVal × List ℤ) :
    ∀ (moves : List α) (l : List ℤ), (mmMinLoop step moves ⊥ l).1 = ⊥ := by
  intro moves
  induction moves with
  | nil => intro l; rfl
  | cons m rest ih =>
    intro l
    simp only [mmMinLoop]
    rw [min_eq_left bot_le]
    exact ih _

/-- The alpha-beta minimizing loop, seeded with `-infinity`, always
returns `-infinity` as its value. -/
theorem abMinLoop_bot {α : Type} (step : α → EVal → EVal → List ℤ → EVal × List ℤ) :
    ∀ (moves : List α) (a β : EVal) (l : List ℤ),
      (abMinLoop step moves ⊥ a β l).1 = ⊥ := by
  intro moves
  induction moves with
  | nil => intros; rfl
  | cons m rest ih =>
    intro a β l
    simp only [abMinLoop]
    rw [min_eq_left bot_le]
    split
    · rfl
    · exact ih _ _ _

/-! Claim theorems. -/

/-- Claim C7: for every board and player, the heuristic evaluator returns
exactly `(n_self - n_opp) + (k_self - k_opp)` where the `n`s count owned
squares and the `k`s count owned squares of promoted (king) class. -/
theorem heuristic_matches_spec_formula (G : Game) (b : G.Board) (p : Player) :
    heuristic_function G b p =
      (spec_material_count G b p - spec_material_count G b (other_player p)) +
      (spec_king_count G b p - spec_king_count G b (other_player p)) := by
  cases p <;>
    simp [heuristic_function, spec_material_count, spec_king_count,
      other_player, List.countP_eq_length_filter]

/-- Claim C8: on every board whose squares are owned by at most one of the
two players, the evaluation is perspective-antisymmetric between them. -/
theorem heuristic_antisymmetric (G : Game) (b : G.Board)
    (h : ∀ s ∈ G.get_player_squares b .P1, s ∉ G.get_player_squares b .P2) :
    heuristic_function G b .P1 = -heuristic_function G b .P2 := by
  simp only [heuristic_function]
  ring

/-- Witness for C8 at a concrete board of the concrete game. -/
theorem heuristic_antisymmetric_witness :
    heuristic_function Gc 3 .P1 = -heuristic_function Gc 3 .P2 :=
  heuristic_antisymmetric Gc 3 (by decide)

/-- Claim C4: when `depth = 0` or the acting player has no legal moves on
the board passed in (checked before the pending move is applied), both
`minimax` and `alpha_beta` perform no recursion, append exactly
`evaluate(board, rootPlayer)` to the accumulator, and return it. -/
theorem leaf_evaluation (G : Game) (mv : G.Move) (b : G.Board) (depth : ℕ)
    (p st : Player) (l : List ℤ) (a β : EVal)
    (h : depth = 0 ∨ (G.get_available_moves b p).length = 0) :
    minimax G mv b depth p st l =
      (EVal.ofInt (heuristic_function G b st), l ++ [heuristic_function G b st]) ∧
    alpha_beta G mv b depth a β p st l =
      (EVal.ofInt (heuristic_function G b st), l ++ [heuristic_function G b st]) := by
  cases depth with
  | zero => exact ⟨rfl, rfl⟩
  | succ d =>
    rcases h with h | h
    · exact absurd h (Nat.succ_ne_zero d)
    · constructor
      · simp only [minimax, h, if_pos]; rfl
      · simp only [alpha_beta, h, if_pos]; rfl

/-- Witness for C4: depth 0 on the concrete game. -/
theorem leaf_evaluation_witness :
    minimax Gc 1 0 0 .P1 .P1 [] =
      (EVal.ofInt (heuristic_function Gc 0 .P1),
        [] ++ [heuristic_function Gc 0 .P1]) ∧
    alpha_beta Gc 1 0 0 ⊥ ⊤ .P1 .P1 [] =
      (EVal.ofInt (heuristic_function Gc 0 .P1),
        [] ++ [heuristic_function Gc 0 .P1]) :=
  leaf_evaluation Gc 1 0 0 .P1 .P1 [] ⊥ ⊤ (Or.inl rfl)

/-- Claim C9: a non-leaf minimizing node (acting player 2) of either search
returns `-infinity` regardless of depth, board, bounds, or children: the
running minimum is seeded with `-infinity`. -/
theorem minimizing_node_returns_bot (G : Game) (mv : G.Move) (b : G.Board)
    (d : ℕ) (st : Player) (a β : EVal) (l : List ℤ)
    (h1 : (G.get_available_moves b .P2).length ≠ 0)
    (h2 : G.get_available_moves (G.apply mv b) .P2 ≠ []) :
    (minimax G mv b (d + 1) .P2 st l).1 = ⊥ ∧
    (alpha_beta G mv b (d + 1) a β .P2 st l).1 = ⊥ := by
  constructor
  · simp only [minimax, h1, if_neg]
    exact mmMinLoop_bot _ _ _
  · simp only [alpha_beta, h1, if_neg]
    exact abMinLoop_bot _ _ _ _ _

/-- Witness for C9 at the root position of the concrete game. -/
theorem minimizing_node_returns_bot_witness :
    (minimax Gc 1 0 (1 + 1) .P2 .P1 []).1 = ⊥ ∧
    (alpha_beta Gc 1 0 (1 + 1) ⊥ ⊤ .P2 .P1 []).1 = ⊥ :=
  minimizing_node_returns_bot Gc 1 0 1 .P1 ⊥ ⊤ [] (by decide) (by decide)

/-- Claim C10: at every non-leaf alpha-beta minimizing node, the loop cuts
after its first child: the value becomes `-infinity`, `beta` becomes
`-infinity`, `beta <= alfa` holds, and the remaining siblings are skipped,
so the accumulator only gains the leaves of the first child. -/
theorem ab_min_cuts_after_first_child (G : Game) (mv : G.Move) (b : G.Board)
    (d : ℕ) (a β : EVal) (st : Player) (l : List ℤ) (m : G.Move)
    (rest : List G.Move)
    (h1 : (G.get_available_moves b .P2).length ≠ 0)
    (h2 : G.get_available_moves (G.apply mv b) .P2 = m :: rest) :
    alpha_beta G mv b (d + 1) a β .P2 st l =
      (⊥, (alpha_beta G m (G.apply mv b) d a β .P1 st l).2) := by
  simp only [alpha_beta, h1, if_neg, h2, abMinLoop]
  rw [min_eq_left bot_le, min_eq_right bot_le, if_pos bot_le]
  simp

/-- Witness for C10 at the root position of the concrete game. -/
theorem ab_min_cuts_after_first_child_witness :
    alpha_beta Gc 1 0 (1 + 1) ⊥ ⊤ .P2 .P1 [] =
      (⊥, (alpha_beta Gc 2 (Gc.apply 1 0) 1 ⊥ ⊤ .P1 .P1 []).2) :=
  ab_min_cuts_after_first_child Gc 1 0 1 ⊥ ⊤ .P1 [] 2 [3]
    (by decide) (by decide)

/-- Claim C2 (code evaluation at the failing input): in `minimax`, the
two children of the minimizing node evaluate to 0 and 5, yet the node returns
`-infinity`, not their minimum — the running minimum is seeded with
`float("-inf")` instead of `float("inf")`. -/
theorem minimax_min_role_failing_input :
    (minimax Gc 2 1 1 .P1 .P1 []).1 = EVal.ofInt 0 ∧
    (minimax Gc 3 1 1 .P1 .P1 []).1 = EVal.ofInt 5 ∧
    (minimax Gc 1 0 2 .P2 .P1 []).1 = ⊥ ∧
    (minimax Gc 1 0 2 .P2 .P1 []).1 ≠
      min (minimax Gc 2 1 1 .P1 .P1 []).1 (minimax Gc 3 1 1 .P1 .P1 []).1 := by
  refine ⟨by decide, by decide, by decide, by decide⟩

/-- Claim C3 (code evaluation at the failing input): in the minimizing
branch of `alpha_beta`, `v` is initialized to `float("-inf")`, not
`+infinity`: with a single first child of value 0 the node returns
`-infinity` instead of 0. -/
theorem alpha_beta_min_init_failing_input :
    (alpha_beta Gc 2 1 1 ⊥ ⊤ .P1 .P1 []).1 = EVal.ofInt 0 ∧
    (alpha_beta Gc 1 0 2 ⊥ ⊤ .P2 .P1 []).1 = ⊥ ∧
    (alpha_beta Gc 1 0 2 ⊥ ⊤ .P2 .P1 []).1 ≠ EVal.ofInt 0 := by
  refine ⟨by decide, by decide, by decide⟩

/-! Selector lemmas. -/

/-- `random.choice` on a non-empty list returns one of its elements. -/
theorem pyChoice_mem {α : Type} (l : List α) (r : ℕ) (h : l ≠ []) :
    ∃ a, pyChoice l r = some a ∧ a ∈ l := by
  have hlen : 0 < l.length := List.length_pos.mpr h
  have hlt : r % l.length < l.length := Nat.mod_lt _ hlen
  exact ⟨l.get ⟨r % l.length, hlt⟩, List.get?_eq_get hlt, List.get_mem _ _ _⟩

/-- `max` of a non-empty list succeeds. -/
theorem pyMax_isSome (l : List ℤ) (h : l ≠ []) : ∃ g, pyMax l = some g := by
  cases l with
  | nil => exact absurd rfl h
  | cons a rest =>
    simp only [pyMax]
    cases pyMax rest
    · exact ⟨a, rfl⟩
    · exact ⟨_, rfl⟩

/-- `max` of a list fails exactly on the empty list. -/
theorem pyMax_eq_none (l : List ℤ) : pyMax l = none ↔ l = [] := by
  cases l with
  | nil => simp [pyMax]
  | cons a rest =>
    simp only [pyMax]
    cases pyMax rest <;> simp

/-- `max` of a list is an element of it. -/
theorem pyMax_mem : ∀ (l : List ℤ) (g : ℤ), pyMax l = some g → g ∈ l := by
  intro l
  induction l with
  | nil => intro g h; simp [pyMax] at h
  | cons a rest ih =>
    intro g h
    simp only [pyMax] at h
    cases h2 : pyMax rest with
    | none =>
      rw [h2] at h
      simp only [Option.some.injEq] at h
      subst h
      exact List.mem_cons_self _ _
    | some b =>
      rw [h2] at h
      simp only [Option.some.injEq] at h
      subst h
      rcases max_choice a b with hm | hm
      · rw [hm]; exact List.mem_cons_self _ _
      · rw [hm]; exact List.mem_cons_of_mem _ (ih _ h2)

/-- `max` of a list bounds each of its elements. -/
theorem pyMax_is_ub : ∀ (l : List ℤ) (x g : ℤ), x ∈ l → pyMax l = some g →
    x ≤ g := by
  intro l
  induction l with
  | nil => intro x g hx _; simp at hx
  | cons a rest ih =>
    intro x g hx h
    simp only [pyMax] at h
    cases h2 : pyMax rest with
    | none =>
      rw [h2] at h
      simp only [Option.some.injEq] at h
      subst h
      have hrest : rest = [] := (pyMax_eq_none rest).mp h2
      subst hrest
      simp only [List.mem_singleton] at hx
      exact le_of_eq hx
    | some b =>
      rw [h2] at h
      simp only [Option.some.injEq] at h
      subst h
      rcases List.mem_cons.mp hx with hx | hx
      · subst hx; exact le_max_left _ _
      · exact le_trans (ih _ _ hx h2) (le_max_right _ _)

/-- The scoring loop yields one grade per candidate when it succeeds. -/
theorem candidate_grades_length (G : Game) (board : G.Board)
    (pl player : Player) (mode : String) :
    ∀ (l : List G.Move) (fsg : List ℤ),
      candidate_grades G board pl player mode l = some fsg →
      fsg.length = l.length := by
  intro l
  induction l with
  | nil =>
    intro fsg h
    simp only [candidate_grades, Option.some.injEq] at h
    subst h
    rfl
  | cons mv rest ih =>
    intro fsg h
    simp only [candidate_grades] at h
    cases h1 : pyMax (candidate_leaves G board pl player mode mv) with
    | none => rw [h1] at h; simp at h
    | some g =>
      rw [h1] at h
      cases h2 : candidate_grades G board pl player mode rest with
      | none => rw [h2] at h; simp at h
      | some gs =>
        rw [h2] at h
        simp only [Option.some.injEq] at h
        subst h
        simp [ih gs h2]

/-- If the accumulator of some candidate is empty, the whole scoring loop takes
the fallback path. -/
theorem candidate_grades_none_of_empty (G : Game) (board : G.Board)
    (pl player : Player) (mode : String) (mv : G.Move) (post : List G.Move)
    (hempty : candidate_leaves G board pl player mode mv = []) :
    ∀ pre : List G.Move,
      candidate_grades G board pl player mode (pre ++ mv :: post) = none := by
  intro pre
  induction pre with
  | nil => simp only [List.nil_append, candidate_grades, hempty]; rfl
  | cons p pre ih =>
    simp only [List.cons_append, candidate_grades]
    cases pyMax (candidate_leaves G board pl player mode p) with
    | none => rfl
    | some g => simp only [List.append_eq, ih]

/-- Claim C5: whenever the legal-move list of the player is non-empty, the move
selector returns (without raising) a move belonging to that list. -/
theorem selector_returns_legal_move (G : Game) (board : G.Board)
    (player : Player) (mode : String) (r1 r2 : ℕ)
    (h : G.get_available_moves board player ≠ []) :
    ∃ mv, get_next_move G board player mode r1 r2 = some mv ∧
      mv ∈ G.get_available_moves board player := by
  cases hcg : candidate_grades G board (other_player player) player mode
      (G.get_available_moves board player) with
  | none =>
    simp only [get_next_move, hcg]
    exact pyChoice_mem _ r1 h
  | some fsg =>
    simp only [get_next_move, hcg]
    have hlen := candidate_grades_length G board (other_player player)
      player mode _ fsg hcg
    have hfsgne : fsg ≠ [] := by
      intro he
      subst he
      exact h (List.length_eq_zero.mp hlen.symm)
    obtain ⟨M, hM⟩ := pyMax_isSome fsg hfsgne
    have hMmem := pyMax_mem fsg M hM
    obtain ⟨i, hi⟩ := List.get?_of_mem hMmem
    have hilt : i < fsg.length := by
      obtain ⟨hw, -⟩ := List.get?_eq_some.mp hi
      exact hw
    have hifilter : i ∈ (List.range fsg.length).filter
        (fun m => fsg.get? m == pyMax fsg) := by
      refine List.mem_filter.mpr ⟨List.mem_range.mpr hilt, ?_⟩
      rw [hi, hM]
      exact beq_self_eq_true _
    have hbestne := List.ne_nil_of_mem hifilter
    obtain ⟨idx, hidx, hidxmem⟩ := pyChoice_mem _ r2 hbestne
    simp only [hidx]
    have hidxlt : idx < (G.get_available_moves board player).length := by
      have := List.mem_range.mp (List.mem_filter.mp hidxmem).1
      omega
    exact ⟨(G.get_available_moves board player).get ⟨idx, hidxlt⟩,
      List.get?_eq_get hidxlt, List.get_mem _ _ _⟩

/-- Witness for C5 on the concrete game. -/
theorem selector_returns_legal_move_witness :
    ∃ mv, get_next_move Gc 0 .P2 "abpruning" 0 0 = some mv ∧
      mv ∈ Gc.get_available_moves 0 .P2 :=
  selector_returns_legal_move Gc 0 .P2 "abpruning" 0 0 (by decide)

/-- Claim C6: if the leaf accumulator of some candidate is empty at the point its
maximum is taken, `get_next_move` abandons the scored comparison entirely and
returns a random element of the whole candidate list instead of raising. -/
theorem empty_accumulator_full_fallback (G : Game) (board : G.Board)
    (player : Player) (mode : String) (r1 r2 : ℕ) (pre : List G.Move)
    (mv : G.Move) (post : List G.Move)
    (hsplit : G.get_available_moves board player = pre ++ mv :: post)
    (hempty : candidate_leaves G board (other_player player) player mode mv
      = []) :
    get_next_move G board player mode r1 r2 =
      pyChoice (G.get_available_moves board player) r1 ∧
    ∃ m, get_next_move G board player mode r1 r2 = some m ∧
      m ∈ G.get_available_moves board player := by
  have hnone : candidate_grades G board (other_player player) player mode
      (G.get_available_moves board player) = none := by
    rw [hsplit]
    exact candidate_grades_none_of_empty G board (other_player player)
      player mode mv post hempty pre
  have hne : G.get_available_moves board player ≠ [] := by
    rw [hsplit]
    simp
  refine ⟨by simp only [get_next_move, hnone], ?_⟩
  obtain ⟨m, hm, hmem⟩ := pyChoice_mem _ r1 hne
  exact ⟨m, by simp only [get_next_move, hnone]; exact hm, hmem⟩

/-- Witness for C6: a position of the concrete game where the accumulator
of the only candidate stays empty, so the selector falls back. -/
theorem empty_accumulator_full_fallback_witness :
    get_next_move Gc 20 .P2 "abpruning" 0 0 =
      pyChoice (Gc.get_available_moves 20 .P2) 0 ∧
    ∃ m, get_next_move Gc 20 .P2 "abpruning" 0 0 = some m ∧
      m ∈ Gc.get_available_moves 20 .P2 :=
  empty_accumulator_full_fallback Gc 20 .P2 "abpruning" 0 0 [] 21 []
    (by decide) (by decide)

/-! Accumulator refinement: alpha-beta visits a subsequence of the
leaves plain minimax visits. -/

/-- The maximizing minimax loop only ever appends to the accumulator. -/
theorem mmMaxLoop_acc_grows {α : Type} (step : α → List ℤ → EVal × List ℤ)
    (hstep : ∀ m l, List.Sublist l (step m l).2) :
    ∀ (moves : List α) (best : EVal) (l : List ℤ),
      List.Sublist l (mmMaxLoop step moves best l).2 := by
  intro moves
  induction moves with
  | nil => intro best l; exact List.Sublist.refl _
  | cons m rest ih =>
    intro best l
    simp only [mmMaxLoop]
    exact (hstep m l).trans (ih _ _)

/-- The minimizing minimax loop only ever appends to the accumulator. -/
theorem mmMinLoop_acc_grows {α : Type} (step : α → List ℤ → EVal × List ℤ)
    (hstep : ∀ m l, List.Sublist l (step m l).2) :
    ∀ (moves : List α) (best : EVal) (l : List ℤ),
      List.Sublist l (mmMinLoop step moves best l).2 := by
  intro moves
  induction moves with
  | nil => intro best l; exact List.Sublist.refl _
  | cons m rest ih =>
    intro best l
    simp only [mmMinLoop]
    exact (hstep m l).trans (ih _ _)

/-- `minimax` only ever appends to its accumulator. -/
theorem minimax_acc_grows (G : Game) :
    ∀ (d : ℕ) (mv : G.Move) (b : G.Board) (p st : Player) (l : List ℤ),
      List.Sublist l (minimax G mv b d p st l).2 := by
  intro d
  induction d with
  | zero =>
    intro mv b p st l
    exact List.sublist_append_left _ _
  | succ d ih =>
    intro mv b p st l
    by_cases hc : (G.get_available_moves b p).length = 0
    · simp only [minimax, hc, if_pos]
      exact List.sublist_append_left _ _
    · cases p with
      | P1 =>
        simp only [minimax, hc, if_neg]
        exact mmMaxLoop_acc_grows _ (fun m acc => ih m _ .P2 st acc) _ _ _
      | P2 =>
        simp only [minimax, hc, if_neg]
        exact mmMinLoop_acc_grows _ (fun m acc => ih m _ .P1 st acc) _ _ _

/-- The pruned maximizing loop records a subsequence of the leaves the plain
maximizing loop records, whatever the bounds and running values are. -/
theorem abMaxLoop_acc_sublist {α : Type}
    (stepA : α → EVal → EVal → List ℤ → EVal × List ℤ)
    (stepM : α → List ℤ → EVal × List ℤ)
    (hstep : ∀ m a β l1 l2, List.Sublist l1 l2 → List.Sublist (stepA m a β l1).2 (stepM m l2).2)
    (hmono : ∀ m l, List.Sublist l (stepM m l).2) :
    ∀ (moves : List α) (v a β best : EVal) (l1 l2 : List ℤ), List.Sublist l1 l2 →
      List.Sublist (abMaxLoop stepA moves v a β l1).2
        (mmMaxLoop stepM moves best l2).2 := by
  intro moves
  induction moves with
  | nil => intro v a β best l1 l2 h; exact h
  | cons m rest ih =>
    intro v a β best l1 l2 h
    simp only [abMaxLoop, mmMaxLoop]
    split
    · exact (hstep m a β l1 l2 h).trans
        (mmMaxLoop_acc_grows stepM hmono rest _ _)
    · exact ih _ _ _ _ _ _ (hstep m a β l1 l2 h)

/-- The pruned minimizing loop records a subsequence of the leaves the plain
minimizing loop records, whatever the bounds and running values are. -/
theorem abMinLoop_acc_sublist {α : Type}
    (stepA : α → EVal → EVal → List ℤ → EVal × List ℤ)
    (stepM : α → List ℤ → EVal × List ℤ)
    (hstep : ∀ m a β l1 l2, List.Sublist l1 l2 → List.Sublist (stepA m a β l1).2 (stepM m l2).2)
    (hmono : ∀ m l, List.Sublist l (stepM m l).2) :
    ∀ (moves : List α) (v a β best : EVal) (l1 l2 : List ℤ), List.Sublist l1 l2 →
      List.Sublist (abMinLoop stepA moves v a β l1).2
        (mmMinLoop stepM moves best l2).2 := by
  intro moves
  induction moves with
  | nil => intro v a β best l1 l2 h; exact h
  | cons m rest ih =>
    intro v a β best l1 l2 h
    simp only [abMinLoop, mmMinLoop]
    split
    · exact (hstep m a β l1 l2 h).trans
        (mmMinLoop_acc_grows stepM hmono rest _ _)
    · exact ih _ _ _ _ _ _ (hstep m a β l1 l2 h)

/-- The leaves recorded by `alpha_beta` form a subsequence of the leaves
recorded by `minimax` run with identical board, depth, acting player and
root player, for any bounds. -/
theorem alpha_beta_acc_sublist (G : Game) :
    ∀ (d : ℕ) (mv : G.Move) (b : G.Board) (a β : EVal) (p st : Player)
      (l1 l2 : List ℤ), List.Sublist l1 l2 →
      List.Sublist (alpha_beta G mv b d a β p st l1).2 (minimax G mv b d p st l2).2 := by
  intro d
  induction d with
  | zero =>
    intro mv b a β p st l1 l2 h
    exact h.append (List.Sublist.refl _)
  | succ d ih =>
    intro mv b a β p st l1 l2 h
    by_cases hc : (G.get_available_moves b p).length = 0
    · simp only [alpha_beta, minimax, hc, if_pos]
      exact h.append (List.Sublist.refl _)
    · cases p with
      | P1 =>
        simp only [alpha_beta, minimax, hc, if_neg]
        exact abMaxLoop_acc_sublist _ _
          (fun m a2 β2 l3 l4 hh => ih m _ a2 β2 .P2 st l3 l4 hh)
          (fun m acc => minimax_acc_grows G d m _ .P2 st acc)
          _ _ _ _ _ _ _ h
      | P2 =>
        simp only [alpha_beta, minimax, hc, if_neg]
        exact abMinLoop_acc_sublist _ _
          (fun m a2 β2 l3 l4 hh => ih m _ a2 β2 .P1 st l3 l4 hh)
          (fun m acc => minimax_acc_grows G d m _ .P1 st acc)
          _ _ _ _ _ _ _ h

/-- The maximum over a subsequence is bounded by the maximum over the full
sequence. -/
theorem pyMax_le_of_sublist (l1 l2 : List ℤ) (hs : List.Sublist l1 l2) (g1 : ℤ)
    (h1 : pyMax l1 = some g1) : ∃ g2, pyMax l2 = some g2 ∧ g1 ≤ g2 := by
  have hmem : g1 ∈ l2 := hs.subset (pyMax_mem _ _ h1)
  obtain ⟨g2, hg2⟩ := pyMax_isSome l2 (List.ne_nil_of_mem hmem)
  exact ⟨g2, hg2, pyMax_is_ub _ _ _ hmem hg2⟩

/-- Claim C1 (amended): with identical board, depth, acting player and root
player, and an infinite alpha-beta window, the maximal leaf value recorded
by `alpha_beta` is at most — not necessarily equal to — the maximal leaf
value recorded by `minimax`: the pruned run records a subsequence of the
leaves of the plain run, so pruning can change the best top-level move value. -/
theorem alpha_beta_max_leaf_le_minimax (G : Game) (mv : G.Move) (b : G.Board)
    (d : ℕ) (p st : Player) (l : List ℤ) (g1 : ℤ)
    (h : pyMax (alpha_beta G mv b d ⊥ ⊤ p st l).2 = some g1) :
    ∃ g2, pyMax (minimax G mv b d p st l).2 = some g2 ∧ g1 ≤ g2 :=
  pyMax_le_of_sublist _ _
    (alpha_beta_acc_sublist G d mv b ⊥ ⊤ p st l l (List.Sublist.refl l))
    g1 h

/-- Witness for the amended C1 at the root position of the concrete game. -/
theorem alpha_beta_max_leaf_le_minimax_witness :
    ∃ g2, pyMax (minimax Gc 1 0 2 .P2 .P1 []).2 = some g2 ∧ (0 : ℤ) ≤ g2 :=
  alpha_beta_max_leaf_le_minimax Gc 1 0 2 .P2 .P1 [] 0 (by decide)

/-- Counterexample to claim C1 as stated: with identical board, depth,
acting player and root player, and an infinite alpha-beta window, the
maximal leaf value recorded by `alpha_beta` (0) differs from the maximal
leaf value recorded by `minimax` (5). -/
theorem pruned_max_leaf_differs :
    pyMax (alpha_beta Gc 1 0 2 ⊥ ⊤ .P2 .P1 []).2 ≠
      pyMax (minimax Gc 1 0 2 .P2 .P1 []).2 := by decide

end CheckersAI
